import Mathlib

/-!
Shallow embedding of the `seqtools` library.

The Python sources are translated function by function:

* `seqslice.py`: `SeqSlice.len`, `SeqSlice._compose_index`,
  `SeqSlice._compose_slice`, `SeqSlice.__getitem__` (both the single-index
  and the slice branch, the latter together with `EmptySubsliceException`).
* `combinatorics.py`: `Product.len`, `Product._multi_index`,
  `Product._elem_at`, `Product.__getitem__`, `Product.__contains__`,
  `Product.index`, `Product.count`, and `_ProductSlice.__iter__`
  (the odometer-style iterator).
* `reversed.py`: `Reversed.__new__` dispatch, `Reversed._seqtools_reversed`,
  and `Reversed.index`.

Base sequences are modelled as Lean lists; Python integers are `Int` with
Python's floor division and floor modulus rendered as `Int.fdiv` / `Int.fmod`;
fallible operations return `Except PyErr`.
-/

set_option autoImplicit false

universe u

/-- Exceptions raised by the modelled Python code. -/
inductive PyErr where
  | valueError
  | indexError
  | typeError
  | zeroDivisionError
deriving Repr, DecidableEq

instance {ε α : Type} [DecidableEq ε] [DecidableEq α] : DecidableEq (Except ε α)
  | .error a, .error b =>
    if h : a = b then .isTrue (by rw [h]) else .isFalse (by intro hc; cases hc; exact h rfl)
  | .error _, .ok _ => .isFalse (by intro hc; cases hc)
  | .ok _, .error _ => .isFalse (by intro hc; cases hc)
  | .ok a, .ok b =>
    if h : a = b then .isTrue (by rw [h]) else .isFalse (by intro hc; cases hc; exact h rfl)

/-- A Python `slice` object: a triple of optional integers, as stored in
`SeqSlice._slice`. -/
structure PySlice where
  start : Option Int
  stop : Option Int
  step : Option Int
deriving Repr, DecidableEq

/-- Model of CPython `slice.indices(L)` (`PySlice_Unpack` plus
`PySlice_AdjustIndices`): resolve the three optional fields against a base
length `L`, clipping out-of-range values; a zero step raises `ValueError`. -/
def PySlice.indices (s : PySlice) (L : Int) : Except PyErr (Int × Int × Int) :=
  let step : Int := match s.step with | none => 1 | some k => k
  if step = 0 then .error .valueError else
  let lower : Int := if step < 0 then -1 else 0
  let upper : Int := if step < 0 then L - 1 else L
  let start : Int :=
    match s.start with
    | none => if step < 0 then upper else lower
    | some a => if a < 0 then max (a + L) lower else min a upper
  let stop : Int :=
    match s.stop with
    | none => if step < 0 then lower else upper
    | some b => if b < 0 then max (b + L) lower else min b upper
  .ok (start, stop, step)

/-- Python indexing `l[j]` of a plain sequence of length `l.length`:
negative indices count from the end, anything out of range raises
`IndexError`. -/
def pyGetAt {α : Type u} (l : List α) (j : Int) : Except PyErr α :=
  let k := if j < 0 then j + (l.length : Int) else j
  if h : 0 ≤ k ∧ k.toNat < l.length then .ok (l.get ⟨k.toNat, h.2⟩)
  else .error .indexError

/-- Reference semantics of Python slicing `base[s]` for a plain sequence:
resolve bounds with `PySlice.indices`, compute the slice length with
CPython's `get_len_of_range` formula, and gather `start + k*step` for
`k = 0, 1, ...`.  This is the builtin behaviour `SeqSlice` is documented
(doctests, unit tests) to agree with. -/
def listSlice {α : Type u} [Inhabited α] (base : List α) (s : PySlice) :
    Except PyErr (List α) :=
  match s.indices (base.length : Int) with
  | .error e => .error e
  | .ok (a, b, st) =>
    let n : Nat :=
      if (0 < st ∧ a < b) ∨ (st < 0 ∧ b < a) then ((|b - a| - 1).fdiv |st| + 1).toNat
      else 0
    .ok ((List.range n).map fun k => base.getD (a + (k : Int) * st).toNat default)

namespace SeqSlice

/-- `SeqSlice.len`: resolve the stored slice against the current base length
and apply the CPython `get_len_of_range` formula. -/
def len (sl : PySlice) (L : Int) : Except PyErr Int :=
  match sl.indices L with
  | .error e => .error e
  | .ok (start, stop, step) =>
    .ok (if (0 < step ∧ start < stop) ∨ (step < 0 ∧ stop < start) then
           (|stop - start| - 1).fdiv |step| + 1
         else 0)

/-- `SeqSlice._compose_index`: map an index `i` into the view (with
`-len ≤ i < len`) to an index into the base sequence of length `L`,
reproducing the sign conventions of the source (negative result when the
slice was expressed relative to the end of the base). -/
def compose_index (sl : PySlice) (L : Int) (i : Int) : Except PyErr Int :=
  match sl.indices L with
  | .error e => .error e
  | .ok (start, stop, step) =>
    if 0 ≤ i then
      let j := start + i * step
      let j :=
        if (match sl.start with | some a => decide (a < 0) | none => decide (step < 0)) then
          j - L
        else j
      .ok j
    else
      let base := (start - stop).fmod step + stop
      let j := base + i * step
      let j :=
        if (match sl.stop with | some b => decide (b < 0) | none => decide (0 < step)) then
          j - L
        else j
      .ok j

/-- Is an optional inner step explicitly negative (`s.step is not None and
s.step < 0`)? -/
def stepIsNeg : Option Int → Bool
  | none => false
  | some k => decide (k < 0)

/-- Is an optional inner step explicitly positive (`s.step > 0` for a present
step)? -/
def stepIsPos : Option Int → Bool
  | none => false
  | some k => decide (0 < k)

/-- Result of composing one boundary in `_compose_slice`: either the
`EmptySubsliceException` branch or the new optional boundary value. -/
inductive BoundRes where
  | emptySub
  | val (x : Option Int)
deriving Repr, DecidableEq

/-- Start-parameter composition of `SeqSlice._compose_slice` (bounds-check the
inner start against the view length `Lv`, compose in-range values through
`compose_index`, raise for starts past the reachable end, clip otherwise,
and follow up the clipping-to-old-stop cases with `compose_index (-1)`). -/
def compose_start (sl : PySlice) (L Lv : Int) (s : PySlice) : Except PyErr BoundRes :=
  let reversedQ := stepIsNeg s.step
  let clip : Except PyErr BoundRes :=
    match compose_index sl L (-1) with
    | .error e => .error e
    | .ok j => .ok (.val (some j))
  match s.start with
  | some a =>
    if -Lv ≤ a ∧ a < Lv then
      match compose_index sl L a with
      | .error e => .error e
      | .ok j => .ok (.val (some j))
    else if (Lv ≤ a ∧ (s.step = none ∨ stepIsPos s.step = true))
            ∨ (a < -Lv ∧ stepIsNeg s.step = true) then
      .ok .emptySub
    else if reversedQ then clip
    else .ok (.val sl.start)
  | none => if reversedQ then clip else .ok (.val sl.start)

/-- Stop-parameter composition of `SeqSlice._compose_slice`, including the
clipping-to-old-start follow-up that writes `None` when the outer start is
`None` or `0` and otherwise steps one past the outer start in the direction
of the composed step `step0`. -/
def compose_stop (sl : PySlice) (L Lv : Int) (s : PySlice) (step0 : Option Int) :
    Except PyErr BoundRes :=
  let reversedQ := stepIsNeg s.step
  let clip : BoundRes :=
    match sl.start with
    | none => .val none
    | some a =>
      if a = 0 then .val none
      else .val (some (a + (match step0 with | some k => if 0 < k then 1 else -1 | none => -1)))
  match s.stop with
  | some b =>
    if -Lv ≤ b ∧ b < Lv then
      match compose_index sl L b with
      | .error e => .error e
      | .ok j => .ok (.val (some j))
    else if (b < -Lv ∧ (s.step = none ∨ stepIsPos s.step = true))
            ∨ (Lv ≤ b ∧ stepIsNeg s.step = true) then
      .ok .emptySub
    else if reversedQ then .ok clip
    else .ok (.val sl.stop)
  | none => if reversedQ then .ok clip else .ok (.val sl.stop)

/-- Outcome of `SeqSlice._compose_slice`: the `EmptySubsliceException`, or a
fused slice object. -/
inductive ComposeOut where
  | emptySub
  | slc (t : PySlice)
deriving Repr, DecidableEq

/-- `SeqSlice._compose_slice`: fuse the stored slice `sl` (over a base of
length `L`) with an inner slice `s`.  The step parameters multiply, the view
length is computed once when either inner bound is present (the `0` used in
the all-`None` case is never consulted, mirroring Python leaving `L`
unassigned), and the two boundaries are composed in source order. -/
def compose_slice (sl : PySlice) (L : Int) (s : PySlice) : Except PyErr ComposeOut :=
  let step0 : Option Int :=
    match s.step, sl.step with
    | none, st => st
    | some k, some st => some (st * k)
    | some k, none => some k
  match (match s.start, s.stop with
         | none, none => Except.ok 0
         | _, _ => len sl L) with
  | .error e => .error e
  | .ok Lv =>
    match compose_start sl L Lv s with
    | .error e => .error e
    | .ok .emptySub => .ok .emptySub
    | .ok (.val ns) =>
      match compose_stop sl L Lv s step0 with
      | .error e => .error e
      | .ok .emptySub => .ok .emptySub
      | .ok (.val nstop) => .ok (.slc ⟨ns, nstop, step0⟩)

/-- Result of the slice branch of `SeqSlice.__getitem__`: a new view over the
same base, or (when `_compose_slice` raised `EmptySubsliceException`) a fresh
empty instance of the base sequence's type — for a list base, the empty
list. -/
inductive SubResult (α : Type u) where
  | view (t : PySlice)
  | materialized (l : List α)
deriving Repr, DecidableEq

/-- Slice branch of `SeqSlice.__getitem__`. -/
def getitem_slice {α : Type u} (base : List α) (sl : PySlice) (s : PySlice) :
    Except PyErr (SubResult α) :=
  match compose_slice sl (base.length : Int) s with
  | .error e => .error e
  | .ok .emptySub => .ok (.materialized [])
  | .ok (.slc t) => .ok (.view t)

/-- Single-index branch of `SeqSlice.__getitem__`: bounds-check against the
view length, then delegate to the base via `compose_index`. -/
def getitem_int {α : Type u} (base : List α) (sl : PySlice) (i : Int) : Except PyErr α :=
  match len sl (base.length : Int) with
  | .error e => .error e
  | .ok Lv =>
    if -Lv ≤ i ∧ i < Lv then
      match compose_index sl (base.length : Int) i with
      | .error e => .error e
      | .ok j => pyGetAt base j
    else .error .indexError

/-- Collect `f 0, f 1, ..., f (n-1)` in order, propagating errors. -/
def collectN {α : Type u} (f : Nat → Except PyErr α) : Nat → Except PyErr (List α)
  | 0 => .ok []
  | n + 1 =>
    match collectN f n, f n with
    | .ok xs, .ok x => .ok (xs ++ [x])
    | .error e, _ => .error e
    | .ok _, .error e => .error e

/-- The element sequence of a view: the items `view[0], ..., view[len-1]`
obtained through `SeqSlice.__getitem__`. -/
def elems {α : Type u} (base : List α) (sl : PySlice) : Except PyErr (List α) :=
  match len sl (base.length : Int) with
  | .error e => .error e
  | .ok Lv => collectN (fun k => getitem_int base sl (k : Int)) Lv.toNat

end SeqSlice

namespace Product

/-- `Product.len`: `functools.reduce(operator.mul, (len(s) for s in
self._sequences), 1)` — the product of the factor lengths, `1` for no
factors.  Lean's `Nat` is arbitrary precision, like Python's `int`. -/
def len (fs : List (List Int)) : Nat := (fs.map List.length).foldl (· * ·) 1

/-- Core loop of `Product._multi_index`: walk the factors from the last one
to the first, at each step `divmod`-ing the running index by the factor
length (Python floor semantics; a zero factor length raises
`ZeroDivisionError`) and prepending the remainder digit.  Returns the
leftover quotient together with the digits. -/
def multi_index_go : List (List Int) → Int → Except PyErr (Int × List Int)
  | [], i => .ok (i, [])
  | f :: rest, i =>
    match multi_index_go rest i with
    | .error e => .error e
    | .ok (q, ds) =>
      if (f.length : Int) = 0 then .error .zeroDivisionError
      else .ok (q.fdiv (f.length : Int), q.fmod (f.length : Int) :: ds)

/-- `Product._multi_index`: per-factor indices for a linear index. -/
def multi_index (fs : List (List Int)) (i : Int) : Except PyErr (List Int) :=
  match multi_index_go fs i with
  | .error e => .error e
  | .ok (_, ds) => .ok ds

/-- `Product._elem_at`: `tuple(s[indices[i]] for i, s in
enumerate(self._sequences))` — one element per factor; a missing digit is an
`IndexError` on the `indices` tuple, extra digits are ignored. -/
def elem_at : List (List Int) → List Int → Except PyErr (List Int)
  | [], _ => .ok []
  | _ :: _, [] => .error .indexError
  | f :: rest, d :: dr =>
    match pyGetAt f d with
    | .error e => .error e
    | .ok x =>
      match elem_at rest dr with
      | .error e => .error e
      | .ok xs => .ok (x :: xs)

/-- Single-index branch of `Product.__getitem__`: explicit bounds check
against `[-len, len)`, then decompose and gather. -/
def getitem_int (fs : List (List Int)) (i : Int) : Except PyErr (List Int) :=
  let L : Int := len fs
  if -L ≤ i ∧ i < L then
    match multi_index fs i with
    | .error e => .error e
    | .ok ds => elem_at fs ds
  else .error .indexError

/-- An argument passed to the search methods of `Product`: either a tuple of
integers or a bare (non-tuple) integer. -/
inductive PyItem where
  | intv (n : Int)
  | tup (l : List Int)
deriving Repr, DecidableEq

/-- `Product.__contains__`: `TypeError` for a non-tuple, `False` on arity
mismatch, otherwise componentwise membership. -/
def contains (fs : List (List Int)) (item : PyItem) : Except PyErr Bool :=
  match item with
  | .intv _ => .error .typeError
  | .tup l =>
    if l.length ≠ fs.length then .ok false
    else .ok ((l.zip fs).all fun p => decide (p.1 ∈ p.2))

/-- Loop of `Product.count`: multiply per-factor occurrence counts,
returning `0` as soon as the running product hits zero. -/
def count_go : List (Int × List Int) → Nat → Nat
  | [], ways => ways
  | (e, f) :: rest, ways =>
    let w := ways * f.count e
    if w = 0 then 0 else count_go rest w

/-- `Product.count`: `0` for a non-tuple or on arity mismatch, otherwise the
short-circuiting product of per-factor counts. -/
def count (fs : List (List Int)) (item : PyItem) : Nat :=
  match item with
  | .intv _ => 0
  | .tup l => if l.length ≠ fs.length then 0 else count_go (l.zip fs) 1

/-- `list.index` / `tuple.index` for a factor: first position of `e`, or
`ValueError` when absent. -/
def factor_index (f : List Int) (e : Int) : Except PyErr Int :=
  match f.findIdx? (· = e) with
  | some k => .ok (k : Int)
  | none => .error .valueError

/-- Loop of `Product.index`: `i *= len(factor); i += factor.index(elem)` over
`zip(item, self._sequences)` — note that `zip` silently truncates to the
shorter of the two lists. -/
def index_go : List (Int × List Int) → Int → Except PyErr Int
  | [], i => .ok i
  | (e, f) :: rest, i =>
    match factor_index f e with
    | .error err => .error err
    | .ok k => index_go rest (i * (f.length : Int) + k)

/-- `Product.index`: special-cases the empty product, then runs the zipped
accumulation loop; a non-tuple item makes `zip` raise `TypeError`. -/
def index (fs : List (List Int)) (item : PyItem) : Except PyErr Int :=
  if fs = [] then
    match item with
    | .tup [] => .ok 0
    | _ => .error .valueError
  else
    match item with
    | .intv _ => .error .typeError
    | .tup l => index_go (l.zip fs) 0

end Product

/-- Python's comparison of two integer lists (`indices < stop` in
`_ProductSlice.__iter__`): lexicographic, with a strict prefix comparing
less. -/
def listLexLt : List Int → List Int → Bool
  | [], [] => false
  | [], _ :: _ => true
  | _ :: _, [] => false
  | x :: xs, y :: ys => if x < y then true else if y < x then false else listLexLt xs ys

namespace ProductSlice

/-- Inner `while` of `_ProductSlice.__iter__`: propagate carries leftward
from position `pos` while the digit there is out of `[0, factorLength)`,
refreshing the changed element slots.  (The `divmod` here is by a factor
length; as in the source it is only meaningful for nonzero lengths —
a zero length would raise `ZeroDivisionError` in Python.) -/
def carry (fs : List (List Int)) : Nat → List Int → List Int → (List Int × List Int × Nat)
  | 0, indices, item => (indices, item, 0)
  | p + 1, indices, item =>
    let flen : Int := ((fs.getD (p + 1) []).length : Int)
    let v := indices.getD (p + 1) 0
    if 0 ≤ v ∧ v < flen then (indices, item, p + 1)
    else
      let q := v.fdiv flen
      let r := v.fmod flen
      let indices2 := (indices.set (p + 1) r).set p (indices.getD p 0 + q)
      let item2 := item.set (p + 1) ((fs.getD (p + 1) []).getD r.toNat 0)
      carry fs p indices2 item2

/-- Main loop of `_ProductSlice.__iter__`: while the stop multi-index has not
been passed, advance the last digit by `step`, run the carry loop, stop when
the first digit runs off the product, otherwise refresh the last changed
slot and yield.  `fuel` is a structural-recursion bound chosen large enough
by the caller. -/
def loop (fs : List (List Int)) (stopMI : Option (List Int)) (step : Int) :
    Nat → List Int → List Int → List (List Int)
  | 0, _, _ => []
  | fuel + 1, indices, item =>
    let go : Bool :=
      match stopMI with
      | none => true
      | some st => if 0 < step then listLexLt indices st else listLexLt st indices
    if go then
      let n := fs.length
      let indices1 := indices.set (n - 1) (indices.getD (n - 1) 0 + step)
      let res := carry fs (n - 1) indices1 item
      let indices2 := res.1
      let item2 := res.2.1
      let pos := res.2.2
      let flen0 : Int := ((fs.getD pos []).length : Int)
      let v := indices2.getD pos 0
      if pos = 0 ∧ ¬(0 ≤ v ∧ v < flen0) then []
      else
        let item3 := item2.set pos ((fs.getD pos []).getD v.toNat 0)
        item3 :: loop fs stopMI step fuel indices2 item3
    else []

/-- `_ProductSlice.__iter__`: the full sequence of items yielded by the
generator when iterating `Product(...)[start:stop:step]`.  Translated
section by section from the source: zero-step rejection, start
normalization (returning no items when the start lies past the reachable
end), the empty-factor-list special case, conversion of the raw stop to a
multi-index, then the initial yield followed by the odometer loop. -/
def iter (fs : List (List Int)) (s : PySlice) : Except PyErr (List (List Int)) :=
  if s.step = some 0 then .error .valueError else
  let step : Int := match s.step with | none => 1 | some k => k
  let L : Int := Product.len fs
  let startR : Option Int :=
    match s.start with
    | none => some (if 0 < step then 0 else -1)
    | some a =>
      if (L ≤ a ∧ 0 < step) ∨ (a < -L ∧ step < 0) then none
      else if L ≤ a ∧ step < 0 then some (L - 1)
      else if a < -L ∧ 0 < step then some (-L)
      else some a
  match startR with
  | none => .ok []
  | some start =>
    if fs = [] then .ok [[]] else
    match (match s.stop with
           | none => Except.ok none
           | some b =>
             match Product.multi_index fs b with
             | .error e => .error e
             | .ok ds => .ok (some ds)) with
    | .error e => .error e
    | .ok stopMI =>
      match Product.multi_index fs start with
      | .error e => .error e
      | .ok indices =>
        match Product.elem_at fs indices with
        | .error e => .error e
        | .ok item =>
          .ok (item :: loop fs stopMI step (Product.len fs + 2) indices item)

end ProductSlice

namespace Reversed

/-- The object universe used to model `Reversed.__new__`'s dispatch: a plain
(non-`SeqReversible`) base sequence such as a list or tuple, a `Reversed`
instance wrapping a plain base, or a `SeqSlice` view over a plain base.
(The `range` branch of `__new__` concerns Python `range` objects only and
has no counterpart here.) -/
inductive SeqObj where
  | plain (l : List Int)
  | rev (l : List Int)
  | slc (l : List Int) (t : PySlice)
deriving Repr, DecidableEq

/-- `Reversed.__new__` / the cooperative-reversal protocol: a `Reversed`
instance reverses by extracting its wrapped sequence
(`Reversed._seqtools_reversed`), a `SeqSlice` reverses via `self[::-1]`
(`SeqSlice._seqtools_reversed`, which may materialize an empty base-typed
sequence), and a plain sequence gets wrapped. -/
def new : SeqObj → Except PyErr SeqObj
  | .plain l => .ok (.rev l)
  | .rev l => .ok (.plain l)
  | .slc l t =>
    match SeqSlice.getitem_slice l t ⟨none, none, some (-1)⟩ with
    | .error e => .error e
    | .ok (.view t2) => .ok (.slc l t2)
    | .ok (.materialized m) => .ok (.plain m)

/-- The element sequence denoted by a `SeqObj`. -/
def objElems : SeqObj → Except PyErr (List Int)
  | .plain l => .ok l
  | .rev l => .ok l.reverse
  | .slc l t => SeqSlice.elems l t

/-- The linear search of `collections.abc.Sequence.index` over a sequence
whose elements are `elems`: clamp a negative `start` at zero, shift a
negative `stop` by the length, then return the first in-window position
holding `item`. -/
def abcIndex (elems : List Int) (item : Int) (start stop : Int) : Option Nat :=
  let start2 : Int := if start < 0 then max ((elems.length : Int) + start) 0 else start
  let stop2 : Int := if stop < 0 then stop + (elems.length : Int) else stop
  (List.range elems.length).find? fun k =>
    decide (start2 ≤ (k : Int)) && decide ((k : Int) < stop2) && decide (elems.getD k 0 = item)

/-- `Reversed.index` for a base sequence that has no `rindex` attribute
(lists and tuples): `stop` defaults to the length, then the `else` branch
evaluates the inherited `Sequence.index` search — whose result is not
returned, so the call yields `None` on success and propagates `ValueError`
on failure. -/
def index_noRindexBase (seq : List Int) (item : Int) (start : Int) (stop : Option Int) :
    Except PyErr (Option Int) :=
  let stop2 : Int := match stop with | none => (seq.length : Int) | some b => b
  match abcIndex seq.reverse item start stop2 with
  | some _ => .ok none
  | none => .error .valueError

end Reversed

/-! ### Specification-side counting of strided intervals -/

/-- The number of integers in the direction-aware half-open interval
`[a, b)` reachable from `a` in steps of `st`: the members are `a + k*st`
for `k = 0, 1, ...` that lie strictly before `b` in the direction of
travel.  (Defined independently of the CPython length formula; `st = 0`
counts nothing.) -/
def progCount (a b st : Int) : Nat :=
  if 0 < st then
    ((List.range (b - a).toNat).filter fun k : Nat => decide (a + (k : Int) * st < b)).length
  else if st < 0 then
    ((List.range (a - b).toNat).filter fun k : Nat => decide (b < a + (k : Int) * st)).length
  else 0

theorem length_filter_range_lt (c : Nat) :
    ∀ n : Nat, ((List.range n).filter fun k => decide (k < c)).length = min c n := by
  intro n
  induction n with
  | zero => simp
  | succ n ih =>
    rw [List.range_succ, List.filter_append, List.length_append, ih]
    by_cases h : n < c
    · simp [h]
      omega
    · simp [h]
      omega

theorem progCount_pos (a b st : Int) (hst : 0 < st) (hab : a < b) :
    progCount a b st = ((b - a - 1) / st).toNat + 1 := by
  have hq0 : 0 ≤ (b - a - 1) / st := Int.ediv_nonneg (by omega) (by omega)
  have hcn : ((b - a - 1) / st).toNat + 1 ≤ (b - a).toNat := by
    have := Int.ediv_le_self st (a := b - a - 1) (by omega)
    omega
  unfold progCount
  rw [if_pos hst]
  have hpred : ∀ k ∈ List.range (b - a).toNat,
      decide (a + (k : Int) * st < b) = decide (k < ((b - a - 1) / st).toNat + 1) := by
    intro k _
    have : (a + (k : Int) * st < b) ↔ (k < ((b - a - 1) / st).toNat + 1) := by
      rw [show (a + (k : Int) * st < b) ↔ ((k : Int) * st ≤ b - a - 1) by omega]
      rw [← Int.le_ediv_iff_mul_le hst]
      omega
    simp only [decide_eq_decide]
    exact this
  rw [List.filter_congr hpred, length_filter_range_lt]
  omega

theorem progCount_neg (a b st : Int) (hst : st < 0) (hab : b < a) :
    progCount a b st = ((a - b - 1) / (-st)).toNat + 1 := by
  have hnst : 0 < -st := by omega
  have hq0 : 0 ≤ (a - b - 1) / (-st) := Int.ediv_nonneg (by omega) (by omega)
  have hcn : ((a - b - 1) / (-st)).toNat + 1 ≤ (a - b).toNat := by
    have := Int.ediv_le_self (-st) (a := a - b - 1) (by omega)
    omega
  unfold progCount
  rw [if_neg (by omega), if_pos hst]
  have hpred : ∀ k ∈ List.range (a - b).toNat,
      decide (b < a + (k : Int) * st) = decide (k < ((a - b - 1) / (-st)).toNat + 1) := by
    intro k _
    have : (b < a + (k : Int) * st) ↔ (k < ((a - b - 1) / (-st)).toNat + 1) := by
      rw [show (b < a + (k : Int) * st) ↔ ((k : Int) * (-st) ≤ a - b - 1) by
        constructor <;> intro h <;> nlinarith]
      rw [← Int.le_ediv_iff_mul_le hnst]
      omega
    simp only [decide_eq_decide]
    exact this
  rw [List.filter_congr hpred, length_filter_range_lt]
  omega

theorem progCount_zero_of_empty (a b st : Int) (h : ¬((0 < st ∧ a < b) ∨ (st < 0 ∧ b < a))) :
    progCount a b st = 0 := by
  unfold progCount
  by_cases h1 : 0 < st
  · have hba : b ≤ a := by omega
    rw [if_pos h1]
    have : (b - a).toNat = 0 := by omega
    rw [this]
    simp
  · rw [if_neg h1]
    by_cases h2 : st < 0
    · have hba : a ≤ b := by omega
      rw [if_pos h2]
      have : (a - b).toNat = 0 := by omega
      rw [this]
      simp
    · rw [if_neg h2]

/-- Claim C4: for every Range View whose descriptor normalizes against the
base length to concrete bounds `(st, sp, ste)`, the view length is the
direction-aware count of integers of the stepped interval `[st, sp)`; it is
`0` when that interval is empty or runs backward relative to the sign of
`ste`, otherwise `⌊(|sp-st|-1)/|ste|⌋ + 1`; and it is never negative. -/
theorem C4_range_view_length_law (sl : PySlice) (L st sp ste : Int)
    (h : sl.indices L = .ok (st, sp, ste)) :
    SeqSlice.len sl L = .ok ((progCount st sp ste : Nat) : Int) ∧
    0 ≤ ((progCount st sp ste : Nat) : Int) ∧
    ((progCount st sp ste : Nat) : Int) =
      (if (0 < ste ∧ st < sp) ∨ (ste < 0 ∧ sp < st) then (|sp - st| - 1).fdiv |ste| + 1
       else 0) := by
  have key : ((progCount st sp ste : Nat) : Int) =
      (if (0 < ste ∧ st < sp) ∨ (ste < 0 ∧ sp < st) then (|sp - st| - 1).fdiv |ste| + 1
       else 0) := by
    by_cases hc : (0 < ste ∧ st < sp) ∨ (ste < 0 ∧ sp < st)
    · rw [if_pos hc]
      rcases hc with ⟨h1, h2⟩ | ⟨h1, h2⟩
      · rw [progCount_pos st sp ste h1 h2]
        have habs1 : |sp - st| = sp - st := abs_of_nonneg (by omega)
        have habs2 : |ste| = ste := abs_of_nonneg (by omega)
        rw [habs1, habs2, Int.fdiv_eq_ediv _ (by omega)]
        have hq0 : 0 ≤ (sp - st - 1) / ste := Int.ediv_nonneg (by omega) (by omega)
        push_cast
        omega
      · rw [progCount_neg st sp ste h1 h2]
        have habs1 : |sp - st| = st - sp := by rw [abs_of_neg (by omega)]; ring
        have habs2 : |ste| = -ste := abs_of_neg (by omega)
        rw [habs1, habs2, Int.fdiv_eq_ediv _ (by omega)]
        have hq0 : 0 ≤ (st - sp - 1) / (-ste) := Int.ediv_nonneg (by omega) (by omega)
        push_cast
        omega
    · rw [if_neg hc, progCount_zero_of_empty st sp ste hc]
      rfl
  refine ⟨?_, by omega, key⟩
  simp only [SeqSlice.len, h]
  rw [key]

/-- Witness for C4 at the doctest slice `[2::2]` of a length-26 base. -/
theorem C4_range_view_length_law_witness :
    PySlice.indices ⟨some 2, none, some 2⟩ 26 = .ok (2, 26, 2) ∧
    SeqSlice.len ⟨some 2, none, some 2⟩ 26 = .ok ((progCount 2 26 2 : Nat) : Int) :=
  ⟨rfl, (C4_range_view_length_law ⟨some 2, none, some 2⟩ 26 2 26 2 rfl).1⟩

theorem foldl_mul_eq_mul_prod : ∀ (l : List Nat) (a : Nat), l.foldl (· * ·) a = a * l.prod := by
  intro l
  induction l with
  | nil => intro a; simp
  | cons x xs ih =>
    intro a
    rw [List.foldl_cons, ih, List.prod_cons, Nat.mul_assoc]

/-- Claim C5: the length of a Product View is the exact arithmetic product
of the factor lengths (`1` for no factors), computed in arbitrary-precision
arithmetic — in particular the ten-fold product of a million-element factor
is exactly `1000000 ^ 10`. -/
theorem C5_product_length_law :
    (∀ fs : List (List Int), Product.len fs = (fs.map List.length).prod) ∧
    Product.len (List.replicate 10 ((List.range 1000000).map Int.ofNat)) = 1000000 ^ 10 := by
  have hmain : ∀ fs : List (List Int), Product.len fs = (fs.map List.length).prod := by
    intro fs
    unfold Product.len
    rw [foldl_mul_eq_mul_prod, Nat.one_mul]
  refine ⟨hmain, ?_⟩
  rw [hmain, List.map_replicate]
  simp [List.prod_replicate]

/-! ### Specification-side Cartesian product in lexicographic order -/

/-- All combinations of one element per factor, in lexicographic order with
the first factor varying slowest and the last factor fastest (conventional
odometer order). -/
def cartList : List (List Int) → List (List Int)
  | [] => [[]]
  | f :: rest => f.flatMap fun x => (cartList rest).map fun t => x :: t

theorem prodLen_eq_prod (fs : List (List Int)) :
    Product.len fs = (fs.map List.length).prod := by
  unfold Product.len
  rw [foldl_mul_eq_mul_prod, Nat.one_mul]

theorem prodLen_cons (f : List Int) (rest : List (List Int)) :
    Product.len (f :: rest) = f.length * Product.len rest := by
  rw [prodLen_eq_prod, prodLen_eq_prod, List.map_cons, List.prod_cons]

theorem prodLen_pos_elim (fs : List (List Int)) (h : 0 < Product.len fs) :
    ∀ f ∈ fs, 0 < f.length := by
  intro f hf
  rw [prodLen_eq_prod] at h
  by_contra h0
  have hz : f.length = 0 := by omega
  have : (0 : Nat) ∈ fs.map List.length := by
    exact List.mem_map.mpr ⟨f, hf, hz⟩
  have := List.prod_eq_zero this
  omega

theorem length_flatMap_cons_map (C : List (List Int)) :
    ∀ f : List Int, (f.flatMap fun x => C.map fun t => x :: t).length = f.length * C.length := by
  intro f
  induction f with
  | nil => simp
  | cons x ft ihf =>
    rw [List.flatMap_cons, List.length_append, List.length_map, ihf]
    simp [Nat.succ_mul, Nat.add_comm]

theorem cartList_length (fs : List (List Int)) :
    (cartList fs).length = Product.len fs := by
  induction fs with
  | nil => simp [cartList, Product.len]
  | cons f rest ih =>
    rw [prodLen_cons, ← ih]
    show (f.flatMap fun x => (cartList rest).map fun t => x :: t).length =
      f.length * (cartList rest).length
    exact length_flatMap_cons_map (cartList rest) f

theorem cart_getD_cons (f : List Int) (rest : List (List Int)) :
    ∀ q r : Nat, q < f.length → r < (cartList rest).length →
      (cartList (f :: rest)).getD (q * (cartList rest).length + r) [] =
        f.getD q 0 :: (cartList rest).getD r [] := by
  induction f with
  | nil => intro q r hq _; exact absurd hq (by simp)
  | cons x ft ih =>
    intro q r hq hr
    show ((x :: ft).flatMap fun y => (cartList rest).map fun t => y :: t).getD _ [] = _
    rw [List.flatMap_cons]
    cases q with
    | zero =>
      rw [Nat.zero_mul, Nat.zero_add]
      rw [List.getD_append _ _ _ _ (by rw [List.length_map]; exact hr)]
      rw [List.getD_eq_getElem _ _ (by rw [List.length_map]; exact hr)]
      rw [List.getElem_map]
      rw [List.getD_eq_getElem _ _ hr]
      rfl
    | succ q =>
      have hW : (cartList rest).length ≤ (q + 1) * (cartList rest).length + r := by
        have : 1 * (cartList rest).length ≤ (q + 1) * (cartList rest).length :=
          Nat.mul_le_mul_right _ (by omega)
        omega
      rw [List.getD_append_right _ _ _ _ (by rw [List.length_map]; exact hW)]
      rw [List.length_map]
      have hidx : (q + 1) * (cartList rest).length + r - (cartList rest).length =
          q * (cartList rest).length + r := by
        rw [Nat.succ_mul]
        omega
      rw [hidx]
      have := ih q r (by simpa using hq) hr
      exact this

/-- Specification-side mixed-radix digits of a nonnegative linear index:
`digit k = (n / weight k) % length k` with the last factor carrying
weight 1. -/
def digitsSpec : List (List Int) → Nat → List Int
  | [], _ => []
  | f :: rest, n =>
    ((n / Product.len rest % f.length : Nat) : Int) :: digitsSpec rest (n % Product.len rest)

theorem digitsSpec_mod (fs : List (List Int)) (n : Nat) :
    digitsSpec fs (n % Product.len fs) = digitsSpec fs n := by
  induction fs generalizing n with
  | nil => rfl
  | cons f rest ih =>
    show digitsSpec (f :: rest) (n % Product.len (f :: rest)) = digitsSpec (f :: rest) n
    rw [prodLen_cons]
    unfold digitsSpec
    have h1 : n % (f.length * Product.len rest) / Product.len rest % f.length =
        n / Product.len rest % f.length := by
      rw [Nat.mul_comm f.length (Product.len rest), Nat.mod_mul_right_div_self]
      exact Nat.mod_mod_of_dvd _ dvd_rfl
    have h2 : n % (f.length * Product.len rest) % Product.len rest = n % Product.len rest := by
      exact Nat.mod_mod_of_dvd n ⟨f.length, Nat.mul_comm _ _⟩
    rw [h1, h2, ih]

theorem natCast_fdiv (a b : Nat) : (a : Int).fdiv (b : Int) = ((a / b : Nat) : Int) := by
  rw [Int.fdiv_eq_ediv _ (by positivity)]
  exact (Int.ofNat_ediv a b).symm

theorem natCast_fmod (a b : Nat) : (a : Int).fmod (b : Int) = ((a % b : Nat) : Int) := by
  rw [Int.fmod_eq_emod _ (by positivity)]
  exact (Int.ofNat_emod a b).symm

theorem multi_index_go_natCast (fs : List (List Int)) (hpos : ∀ f ∈ fs, 0 < f.length)
    (n : Nat) :
    Product.multi_index_go fs (n : Int) =
      .ok (((n / Product.len fs : Nat) : Int), digitsSpec fs n) := by
  induction fs generalizing n with
  | nil => simp [Product.multi_index_go, Product.len, digitsSpec]
  | cons f rest ih =>
    have hf : 0 < f.length := hpos f (by simp)
    have hrest : ∀ g ∈ rest, 0 < g.length := fun g hg => hpos g (by simp [hg])
    have hrec := ih hrest n
    simp only [Product.multi_index_go, hrec]
    rw [if_neg (by exact_mod_cast hf.ne')]
    rw [natCast_fdiv, natCast_fmod]
    rw [Nat.div_div_eq_div_mul]
    have hlen : Product.len rest * f.length = Product.len (f :: rest) := by
      rw [prodLen_cons, Nat.mul_comm]
    rw [hlen]
    show _ = Except.ok (((n / Product.len (f :: rest) : Nat) : Int),
      ((n / Product.len rest % f.length : Nat) : Int) :: digitsSpec rest (n % Product.len rest))
    rw [digitsSpec_mod]

theorem multi_index_go_shift (fs : List (List Int)) :
    ∀ (i k : Int), Product.multi_index_go fs (i + k * (Product.len fs : Int)) =
      Except.map (fun p => (p.1 + k, p.2)) (Product.multi_index_go fs i) := by
  induction fs with
  | nil => intro i k; simp [Product.multi_index_go, Product.len, Except.map]
  | cons f rest ih =>
    intro i k
    have harg : i + k * (Product.len (f :: rest) : Int) =
        i + (k * (f.length : Int)) * (Product.len rest : Int) := by
      rw [prodLen_cons]
      push_cast
      ring
    rw [harg]
    simp only [Product.multi_index_go]
    rw [ih i (k * (f.length : Int))]
    cases hrec : Product.multi_index_go rest i with
    | error e => simp [Except.map]
    | ok p =>
      obtain ⟨q, ds⟩ := p
      by_cases hz : (f.length : Int) = 0
      · simp [Except.map, hz]
      · simp only [Except.map, if_neg hz]
        have h1 : (q + k * (f.length : Int)).fdiv (f.length : Int) = q.fdiv (f.length : Int) + k := by
          rw [Int.fdiv_eq_ediv _ (by positivity), Int.fdiv_eq_ediv _ (by positivity),
            Int.add_mul_ediv_right _ _ hz]
        have h2 : (q + k * (f.length : Int)).fmod (f.length : Int) = q.fmod (f.length : Int) := by
          rw [Int.fmod_eq_emod _ (by positivity), Int.fmod_eq_emod _ (by positivity),
            Int.add_mul_emod_self]
        rw [h1, h2]

theorem pyGetAt_natCast {α : Type u} (l : List α) (q : Nat) (hq : q < l.length) :
    pyGetAt l (q : Int) = .ok (l.get ⟨q, hq⟩) := by
  have h0 : ¬((q : Int) < 0) := by omega
  simp [pyGetAt, h0, hq]

theorem elem_at_digitsSpec (fs : List (List Int)) (hpos : ∀ f ∈ fs, 0 < f.length) :
    ∀ n : Nat, n < Product.len fs →
      Product.elem_at fs (digitsSpec fs n) = .ok ((cartList fs).getD n []) := by
  induction fs with
  | nil =>
    intro n hn
    have hn0 : n = 0 := by simpa [Product.len] using hn
    subst hn0
    rfl
  | cons f rest ih =>
    intro n hn
    have hf : 0 < f.length := hpos f (by simp)
    have hrest : ∀ g ∈ rest, 0 < g.length := fun g hg => hpos g (by simp [hg])
    rw [prodLen_cons] at hn
    have hLr : 0 < Product.len rest := by
      rcases Nat.eq_zero_or_pos (Product.len rest) with h0 | h
      · rw [h0, Nat.mul_zero] at hn; omega
      · exact h
    have hq : n / Product.len rest < f.length :=
      (Nat.div_lt_iff_lt_mul hLr).mpr hn
    have hr : n % Product.len rest < Product.len rest := Nat.mod_lt _ hLr
    have hmod : n / Product.len rest % f.length = n / Product.len rest := Nat.mod_eq_of_lt hq
    have hds : digitsSpec (f :: rest) n =
        ((n / Product.len rest : Nat) : Int) :: digitsSpec rest (n % Product.len rest) := by
      show ((n / Product.len rest % f.length : Nat) : Int) :: _ = _
      rw [hmod]
    rw [hds]
    have hget := pyGetAt_natCast f (n / Product.len rest) hq
    have hihr := ih hrest (n % Product.len rest) hr
    simp only [Product.elem_at, hget, hihr]
    have hcart := cart_getD_cons f rest (n / Product.len rest) (n % Product.len rest) hq
      (by rw [cartList_length]; exact hr)
    rw [cartList_length] at hcart
    have hidx : n / Product.len rest * Product.len rest + n % Product.len rest = n :=
      Nat.div_add_mod' n (Product.len rest)
    rw [hidx] at hcart
    rw [hcart]
    have hgd : f.getD (n / Product.len rest) 0 = f.get ⟨n / Product.len rest, hq⟩ := by
      rw [List.getD_eq_getElem f 0 hq]
      rfl
    rw [hgd]

/-- Claim C6: for every Product View and every integer `i` in
`[-length, length)`, `__getitem__` normalizes a negative `i` (the repeated
floor `divmod` decomposition from the last factor acts on `i` modulo the
length), decomposes, and gathers — so the result is exactly the entry of
the lexicographic enumeration of the product (first factor slowest, last
factor fastest) at position `i mod length`. -/
theorem C6_product_mixed_radix_get (fs : List (List Int)) (i : Int)
    (h1 : -((Product.len fs : Int)) ≤ i) (h2 : i < (Product.len fs : Int)) :
    Product.getitem_int fs i =
      .ok ((cartList fs).getD (i.fmod (Product.len fs : Int)).toNat []) := by
  have hL : 0 < ((Product.len fs : Int)) := by omega
  have hLn : 0 < Product.len fs := by exact_mod_cast hL
  have hpos := prodLen_pos_elim fs hLn
  have hm0 : 0 ≤ i.fmod (Product.len fs : Int) := Int.fmod_nonneg' i hL
  have hmlt : i.fmod (Product.len fs : Int) < (Product.len fs : Int) :=
    Int.fmod_lt_of_pos i hL
  set n : Nat := (i.fmod (Product.len fs : Int)).toNat with hn
  have hni : (n : Int) = i.fmod (Product.len fs : Int) := Int.toNat_of_nonneg hm0
  have hnlt : n < Product.len fs := by omega
  have hidentity : i = (n : Int) + (i.fdiv (Product.len fs : Int)) * (Product.len fs : Int) := by
    rw [hni]
    have hfd := Int.fmod_add_fdiv i (Product.len fs : Int)
    linarith [hfd]
  have hgo : Product.multi_index_go fs i =
      .ok (((0 : Nat) : Int) + i.fdiv (Product.len fs : Int), digitsSpec fs n) := by
    conv_lhs => rw [hidentity]
    rw [multi_index_go_shift fs (n : Int) (i.fdiv (Product.len fs : Int))]
    rw [multi_index_go_natCast fs hpos n]
    have hz : n / Product.len fs = 0 := Nat.div_eq_of_lt hnlt
    rw [hz]
    rfl
  unfold Product.getitem_int
  rw [if_pos ⟨h1, h2⟩]
  unfold Product.multi_index
  rw [hgo]
  exact elem_at_digitsSpec fs hpos n hnlt

/-- Witness for C6 at the spec's concrete scenario
`ProductView([0,1],[0,1],[0,1]).get(5) == (1,0,1)`. -/
theorem C6_product_mixed_radix_get_witness :
    (-((Product.len [[0, 1], [0, 1], [0, 1]] : Int)) ≤ 5 ∧
      (5 : Int) < (Product.len [[0, 1], [0, 1], [0, 1]] : Int)) ∧
    Product.getitem_int [[0, 1], [0, 1], [0, 1]] 5 = .ok [1, 0, 1] :=
  ⟨⟨by decide, by decide⟩,
    C6_product_mixed_radix_get [[0, 1], [0, 1], [0, 1]] 5 (by decide) (by decide)⟩

/-- Claim C1 (refuted by the code — evaluation at the failing input): over
the base `[0,1,2,3,4,5]`, fusing the outer descriptor `(-1, None, -1)` with
the inner descriptor `(None, None, -1)` produces the slice `(0, 0, 1)`,
whose element sequence is empty, while explicit two-step indexing gives the
full sequence `[0,1,2,3,4,5]` — `_compose_slice`'s clipping of the new stop
to `old start + 1` turns the negative index `-1` into the absolute index
`0`. -/
theorem C1_fusion_bug_eval :
    SeqSlice.getitem_slice ([0, 1, 2, 3, 4, 5] : List Int)
        ⟨some (-1), none, some (-1)⟩ ⟨none, none, some (-1)⟩ =
      .ok (.view ⟨some 0, some 0, some 1⟩) ∧
    SeqSlice.elems ([0, 1, 2, 3, 4, 5] : List Int) ⟨some 0, some 0, some 1⟩ = .ok [] ∧
    listSlice ([0, 1, 2, 3, 4, 5] : List Int) ⟨some (-1), none, some (-1)⟩ =
      .ok [5, 4, 3, 2, 1, 0] ∧
    listSlice ([5, 4, 3, 2, 1, 0] : List Int) ⟨none, none, some (-1)⟩ =
      .ok [0, 1, 2, 3, 4, 5] :=
  ⟨rfl, rfl, rfl, rfl⟩

/-- Claim C2 (refuted by the code — evaluation at the failing input):
iterating the Range View `Product((0,1),(0,1))[0:0]` yields the one item
`(0,0)` even though the view's length is `0` (so indexing positions
`0..length-1` yields nothing): `_ProductSlice.__iter__` yields the start
item before consulting the stop bound. -/
theorem C2_product_slice_iter_bug_eval :
    ProductSlice.iter [[0, 1], [0, 1]] ⟨some 0, some 0, none⟩ = .ok [[0, 0]] ∧
    SeqSlice.len ⟨some 0, some 0, none⟩ ((Product.len [[0, 1], [0, 1]] : Nat) : Int) =
      .ok 0 :=
  ⟨rfl, rfl⟩

/-- Claim C3 (refuted by the code — evaluation at the failing input):
reversing the full Range View over `[0,1,2,3,4,5]` twice produces the empty
view with descriptor `(0, 0, 1)` rather than a value equal to the original
(whose elements are `[0,1,2,3,4,5]`); only the Reversal-View extraction law
(last conjunct) holds. -/
theorem C3_double_reversal_bug_eval :
    Reversed.new (.slc [0, 1, 2, 3, 4, 5] ⟨none, none, none⟩) =
      .ok (.slc [0, 1, 2, 3, 4, 5] ⟨some (-1), none, some (-1)⟩) ∧
    Reversed.new (.slc [0, 1, 2, 3, 4, 5] ⟨some (-1), none, some (-1)⟩) =
      .ok (.slc [0, 1, 2, 3, 4, 5] ⟨some 0, some 0, some 1⟩) ∧
    Reversed.objElems (.slc [0, 1, 2, 3, 4, 5] ⟨some 0, some 0, some 1⟩) = .ok [] ∧
    Reversed.objElems (.slc [0, 1, 2, 3, 4, 5] ⟨none, none, none⟩) =
      .ok [0, 1, 2, 3, 4, 5] ∧
    Reversed.new (.rev [0, 1, 2, 3, 4, 5]) = .ok (.plain [0, 1, 2, 3, 4, 5]) :=
  ⟨rfl, rfl, rfl, rfl, rfl⟩

/-- Claim C7 (refuted by the code — evaluation at the failing input): for
`Product((0,1),(0,1))` and the arity-1 item `(1,)`, membership is `False`
and the count is `0`, but `Product.index` — whose `zip` silently truncates —
returns the spurious position `1` instead of signalling not-found. -/
theorem C7_product_index_arity_bug_eval :
    Product.contains [[0, 1], [0, 1]] (.tup [1]) = .ok false ∧
    Product.count [[0, 1], [0, 1]] (.tup [1]) = 0 ∧
    Product.index [[0, 1], [0, 1]] (.tup [1]) = .ok 1 :=
  ⟨rfl, rfl, rfl⟩

/-- Claim C9 (refuted by the code — evaluation at the failing input): for the
tuple base `(10, 20, 30)` (no `rindex` attribute), `Reversed.index(30)`
falls into the fallback branch, whose inherited search finds position `0`
(second conjunct) but whose result is not returned — the call returns
`None`. -/
theorem C9_reversed_index_missing_return_eval :
    Reversed.index_noRindexBase [10, 20, 30] 30 0 none = .ok none ∧
    Reversed.abcIndex ([10, 20, 30] : List Int).reverse 30 0 3 = some 0 :=
  ⟨rfl, rfl⟩

/-- Claim C8 as stated is false at this input: composing the valid view
`SeqSlice([0,1,2,3,4], slice(None,None,None))` with the zero-step descriptor
`(1, 3, 0)` does not raise — it returns a new view storing the zero step. -/
theorem C8_zero_step_counterexample :
    SeqSlice.getitem_slice ([0, 1, 2, 3, 4] : List Int) ⟨none, none, none⟩
        ⟨some 1, some 3, some 0⟩ =
      .ok (.view ⟨some 1, some 3, some 0⟩) :=
  rfl

/-- Claim C8 (amended): a zero step in a view's descriptor raises
`ValueError` at the first operation that resolves bounds — length, single
item access, or `_ProductSlice` iteration — and the error is surfaced,
never swallowed; construction and subrange composition themselves defer the
check. -/
theorem C8_zero_step_rejected_at_access (a b : Option Int) (L : Int) (l : List Int)
    (i : Int) (fs : List (List Int)) :
    SeqSlice.len ⟨a, b, some 0⟩ L = .error .valueError ∧
    SeqSlice.getitem_int l ⟨a, b, some 0⟩ i = .error .valueError ∧
    ProductSlice.iter fs ⟨a, b, some 0⟩ = .error .valueError := by
  have hind : ∀ M : Int, PySlice.indices ⟨a, b, some 0⟩ M = .error .valueError := by
    intro M
    simp [PySlice.indices]
  refine ⟨?_, ?_, ?_⟩
  · simp [SeqSlice.len, hind L]
  · simp [SeqSlice.getitem_int, SeqSlice.len, hind ((l.length : Nat) : Int)]
  · simp [ProductSlice.iter]

/-- Claim-side predicate: an inner descriptor's traversal direction is
forward (step absent or explicitly positive). -/
def innerForward (o : Option Int) : Prop := o = none ∨ ∃ k, o = some k ∧ 0 < k

/-- Claim-side predicate: an inner descriptor's traversal direction is
backward (an explicitly negative step). -/
def innerBackward (o : Option Int) : Prop := ∃ k, o = some k ∧ k < 0

/-- Claim-side "definitely empty" condition on an inner descriptor relative
to a view of length `Lv`: its start lies beyond the reachable end, or its
stop lies before the beginning, in its traversal direction. -/
def definitelyEmptySpec (s : PySlice) (Lv : Int) : Prop :=
  (∃ a, s.start = some a ∧
    ((Lv ≤ a ∧ innerForward s.step) ∨ (a < -Lv ∧ innerBackward s.step))) ∨
  (∃ b, s.stop = some b ∧
    ((b < -Lv ∧ innerForward s.step) ∨ (Lv ≤ b ∧ innerBackward s.step)))

theorem innerForward_bool {o : Option Int} (h : innerForward o) :
    o = none ∨ SeqSlice.stepIsPos o = true := by
  rcases h with h | ⟨k, hk, hkp⟩
  · exact Or.inl h
  · right
    rw [hk]
    simpa [SeqSlice.stepIsPos] using hkp

theorem innerBackward_bool {o : Option Int} (h : innerBackward o) :
    SeqSlice.stepIsNeg o = true := by
  obtain ⟨k, hk, hkn⟩ := h
  rw [hk]
  simpa [SeqSlice.stepIsNeg] using hkn

theorem indices_ok_of_len_ok (sl : PySlice) (L Lv : Int)
    (h : SeqSlice.len sl L = .ok Lv) : ∃ t, sl.indices L = .ok t := by
  unfold SeqSlice.len at h
  cases hI : sl.indices L with
  | error e => rw [hI] at h; simp at h
  | ok t => exact ⟨t, rfl⟩

theorem compose_index_ok (sl : PySlice) (L : Int) (i : Int)
    (h : ∃ t, sl.indices L = .ok t) :
    ∃ j, SeqSlice.compose_index sl L i = .ok j := by
  obtain ⟨⟨st, sp, ste⟩, hI⟩ := h
  unfold SeqSlice.compose_index
  simp only [hI]
  split
  · exact ⟨_, rfl⟩
  · exact ⟨_, rfl⟩

/-- Claim C10: subslicing a Range View with an inner descriptor that starts
beyond the reachable end (or stops before the beginning) in its traversal
direction returns a fresh empty instance of the base sequence's type (for a
list base, the empty list), of length 0 — not a Range View over the
base. -/
theorem C10_definitely_empty_subslice {α : Type u} (base : List α) (sl s : PySlice) (Lv : Int)
    (hlen : SeqSlice.len sl (base.length : Int) = .ok Lv)
    (hde : definitelyEmptySpec s Lv) :
    SeqSlice.getitem_slice base sl s = .ok (.materialized ([] : List α)) := by
  have hIdx : ∃ t, sl.indices (base.length : Int) = .ok t :=
    indices_ok_of_len_ok _ _ _ hlen
  unfold SeqSlice.getitem_slice
  suffices hcs : SeqSlice.compose_slice sl (base.length : Int) s = .ok .emptySub by
    rw [hcs]
  unfold SeqSlice.compose_slice
  rcases hde with ⟨a, hsa, hcond⟩ | ⟨b, hsb, hcond⟩
  · have hstart : SeqSlice.compose_start sl (base.length : Int) Lv s = .ok .emptySub := by
      unfold SeqSlice.compose_start
      simp only [hsa]
      rw [if_neg (by rcases hcond with ⟨h1, _⟩ | ⟨h1, _⟩ <;> omega)]
      rw [if_pos (by
        rcases hcond with ⟨h1, hf⟩ | ⟨h1, hb⟩
        · exact Or.inl ⟨h1, innerForward_bool hf⟩
        · exact Or.inr ⟨h1, innerBackward_bool hb⟩)]
    simp only [hsa, hlen, hstart]
  · have hstop : ∀ st0 : Option Int,
        SeqSlice.compose_stop sl (base.length : Int) Lv s st0 = .ok .emptySub := by
      intro st0
      unfold SeqSlice.compose_stop
      simp only [hsb]
      rw [if_neg (by rcases hcond with ⟨h1, _⟩ | ⟨h1, _⟩ <;> omega)]
      rw [if_pos (by
        rcases hcond with ⟨h1, hf⟩ | ⟨h1, hb⟩
        · exact Or.inl ⟨h1, innerForward_bool hf⟩
        · exact Or.inr ⟨h1, innerBackward_bool hb⟩)]
    have hstart2 : (∃ x, SeqSlice.compose_start sl (base.length : Int) Lv s = .ok (.val x)) ∨
        SeqSlice.compose_start sl (base.length : Int) Lv s = .ok .emptySub := by
      unfold SeqSlice.compose_start
      cases hss : s.start with
      | none =>
        dsimp only
        by_cases hrq : SeqSlice.stepIsNeg s.step = true
        · rw [if_pos hrq]
          obtain ⟨j, hj⟩ := compose_index_ok sl (base.length : Int) (-1) hIdx
          rw [hj]
          exact Or.inl ⟨some j, rfl⟩
        · rw [if_neg hrq]
          exact Or.inl ⟨sl.start, rfl⟩
      | some a2 =>
        dsimp only
        by_cases hin : -Lv ≤ a2 ∧ a2 < Lv
        · rw [if_pos hin]
          obtain ⟨j, hj⟩ := compose_index_ok sl (base.length : Int) a2 hIdx
          rw [hj]
          exact Or.inl ⟨some j, rfl⟩
        · rw [if_neg hin]
          by_cases hemp : (Lv ≤ a2 ∧ (s.step = none ∨ SeqSlice.stepIsPos s.step = true))
              ∨ (a2 < -Lv ∧ SeqSlice.stepIsNeg s.step = true)
          · rw [if_pos hemp]
            exact Or.inr rfl
          · rw [if_neg hemp]
            by_cases hrq : SeqSlice.stepIsNeg s.step = true
            · rw [if_pos hrq]
              obtain ⟨j, hj⟩ := compose_index_ok sl (base.length : Int) (-1) hIdx
              rw [hj]
              exact Or.inl ⟨some j, rfl⟩
            · rw [if_neg hrq]
              exact Or.inl ⟨sl.start, rfl⟩
    cases hss2 : s.start with
    | none =>
      simp only [hss2, hsb, hlen]
      rcases hstart2 with ⟨x, hx⟩ | hx <;> simp only [hx, hstop]
    | some a2 =>
      simp only [hss2, hsb, hlen]
      rcases hstart2 with ⟨x, hx⟩ | hx <;> simp only [hx, hstop]

/-- Witness for C10: over `[0,1,2]` the full view has length 3 and the inner
start 5 lies beyond the reachable end going forward, so subslicing with
`(5, None, None)` materializes the empty list. -/
theorem C10_definitely_empty_subslice_witness :
    (SeqSlice.len ⟨none, none, none⟩ ((List.length ([0, 1, 2] : List Int) : Nat) : Int) =
        .ok 3 ∧ definitelyEmptySpec ⟨some 5, none, none⟩ 3) ∧
    SeqSlice.getitem_slice ([0, 1, 2] : List Int) ⟨none, none, none⟩ ⟨some 5, none, none⟩ =
      .ok (.materialized ([] : List Int)) :=
  ⟨⟨rfl, Or.inl ⟨5, rfl, Or.inl ⟨by decide, Or.inl rfl⟩⟩⟩,
    C10_definitely_empty_subslice ([0, 1, 2] : List Int) ⟨none, none, none⟩
      ⟨some 5, none, none⟩ 3 rfl (Or.inl ⟨5, rfl, Or.inl ⟨by decide, Or.inl rfl⟩⟩)⟩
